import Mathlib

/-!
Verification of the Smart Task Manager priority index (src/SmartTaskManager.h)
and its ordering policy (src/Main.cpp), as a shallow embedding in Lean.

The AVL tree, its id map and the list-level renumbering logic are translated
function-by-function from the C++ source.  C++ `int`/`long` fields are modelled
as `Int` (no arithmetic here approaches the machine bounds), `std::string` as
`String`, exceptions as explicit error values.  The `unordered_map<string,
Node*>` is modelled as an association list from id to the task value stored at
the pointed-to node; this is faithful at the quiescent points between public
operations because every map entry is written exactly when its node is created
and erased exactly when (or before) its node's payload dies, so an entry's
value always equals the pointed-to node's task.
-/

namespace SmartTask

/-- Task record (class Task in SmartTaskManager.h). -/
structure Task where
  id : String
  description : String
  deadlineDetails : String
  priority : Int
  category : String
  status : String
  remainingHours : Int
deriving Repr, DecidableEq

/-- The distinguishable failure outcomes of the index operations
(`runtime_error`s in the source; names follow the spec's error kinds). -/
inductive Err where
  | duplicateId : Err
  | duplicatePriority : Err
  | notFound : Err
deriving Repr, DecidableEq

/-- AVL tree node structure (struct Node): payload task, ordering key,
cached height, children.  `nil` is the null pointer. -/
inductive Tree where
  | nil : Tree
  | node (left : Tree) (task : Task) (key : Int) (height : Nat) (right : Tree)
deriving Repr, DecidableEq

/-- The id map: `unordered_map<string, Node*>`, as id to stored-task pairs. -/
abbrev IdMap := List (String × Task)

/-- Map lookup (`idMap.find` / `idMap[id]` read). -/
def mapFind (m : IdMap) (i : String) : Option Task :=
  (m.find? (fun p => p.1 == i)).map (fun p => p.2)

/-- Map write `idMap[id] = node` (insert-or-assign). -/
def mapSet (m : IdMap) (i : String) (t : Task) : IdMap :=
  (i, t) :: m.filter (fun p => !(p.1 == i))

/-- Map erase `idMap.erase(id)`. -/
def mapErase (m : IdMap) (i : String) : IdMap :=
  m.filter (fun p => !(p.1 == i))

/-- Source `getHeight`: 0 for null, else the cached height field. -/
def getHeight : Tree → Nat
  | .nil => 0
  | .node _ _ _ h _ => h

/-- Source `getBalance`: left height minus right height (0 for null). -/
def getBalance : Tree → Int
  | .nil => 0
  | .node l _ _ _ r => (getHeight l : Int) - (getHeight r : Int)

/-- Source `updateHeight`: recompute this node's cached height from the children. -/
def updateHeight : Tree → Tree
  | .nil => .nil
  | .node l t k _ r => .node l t k (1 + max (getHeight l) (getHeight r)) r

/-- Source `rotateLeft`.  The source dereferences `node->right`; the fall-through
case (null right child) is unreachable in every call site and is modelled as
the identity. -/
def rotateLeft : Tree → Tree
  | .node l t k h (.node rl rt rk rh rr) =>
      updateHeight (.node (updateHeight (.node l t k h rl)) rt rk rh rr)
  | t => t

/-- Source `rotateRight` (mirror image of `rotateLeft`). -/
def rotateRight : Tree → Tree
  | .node (.node ll lt lk lh lr) t k h r =>
      updateHeight (.node ll lt lk lh (updateHeight (.node lr t k h r)))
  | t => t

/-- Source `rotateLeftRight`: rotate the left child left, then this node right. -/
def rotateLeftRight : Tree → Tree
  | .node l t k h r => rotateRight (.node (rotateLeft l) t k h r)
  | .nil => .nil

/-- Source `rotateRightLeft`: rotate the right child right, then this node left. -/
def rotateRightLeft : Tree → Tree
  | .node l t k h r => rotateLeft (.node l t k h (rotateRight r))
  | .nil => .nil

/-- Left child accessor (`node->left`). -/
def leftOf : Tree → Tree
  | .nil => .nil
  | .node l _ _ _ _ => l

/-- Right child accessor (`node->right`). -/
def rightOf : Tree → Tree
  | .nil => .nil
  | .node _ _ _ _ r => r

/-- Source `balance`: the four rotation cases keyed on the balance factor of the
node and the sign of the child's balance factor. -/
def balance (t : Tree) : Tree :=
  let bf := getBalance t
  if bf > 1 then
    if getBalance (leftOf t) < 0 then rotateLeftRight t else rotateRight t
  else if bf < -1 then
    if getBalance (rightOf t) > 0 then rotateRightLeft t else rotateLeft t
  else t

/-- Source `insertHelper`: BST insert keyed on `task.priority`, rebalancing on the
way back up; a met equal key raises "Duplicate priority encountered." before
any node or map write.  The map is threaded through and returned also on the
error path (where the source leaves it untouched). -/
def insertHelper : Tree → Task → IdMap → Except Err Tree × IdMap
  | .nil, task, m =>
      (Except.ok (.node .nil task task.priority 1 .nil), mapSet m task.id task)
  | .node l tk k h r, task, m =>
      if task.priority < k then
        match insertHelper l task m with
        | (Except.ok lNew, mNew) =>
            (Except.ok (balance (updateHeight (.node lNew tk k h r))), mNew)
        | (Except.error e, mNew) => (Except.error e, mNew)
      else if task.priority > k then
        match insertHelper r task m with
        | (Except.ok rNew, mNew) =>
            (Except.ok (balance (updateHeight (.node l tk k h rNew))), mNew)
        | (Except.error e, mNew) => (Except.error e, mNew)
      else
        (Except.error Err.duplicatePriority, m)

/-- Source `findMin`: leftmost node of a subtree (null on null input). -/
def findMin : Tree → Tree
  | .nil => .nil
  | .node .nil t k h r => .node .nil t k h r
  | .node (.node a b c d e) _ _ _ _ => findMin (.node a b c d e)

/-- Source `deleteHelper`: BST delete by key.  At the found node the source first
erases the node's id from the map, then either splices out a node with at
most one child (early return, no rebalance at this frame) or copies the
in-order successor's task and key into this node and recursively deletes the
successor's position from the right subtree. -/
def deleteHelper : Tree → Int → IdMap → Tree × IdMap
  | .nil, _, m => (.nil, m)
  | .node l tk k h r, key, m =>
      if key < k then
        let p := deleteHelper l key m
        (balance (updateHeight (.node p.1 tk k h r)), p.2)
      else if key > k then
        let p := deleteHelper r key m
        (balance (updateHeight (.node l tk k h p.1)), p.2)
      else
        let m1 := mapErase m tk.id
        match l, r with
        | .nil, _ => (r, m1)
        | _, .nil => (l, m1)
        | _, _ =>
            match findMin r with
            | .node _ mt mk _ _ =>
                let p := deleteHelper r mk m1
                (balance (updateHeight (.node l mt mk h p.1)), p.2)
            | .nil => (.nil, m1)

/-- Source `inOrder`: in-order traversal collecting the tasks. -/
def inOrder : Tree → List Task
  | .nil => []
  | .node l t _ _ r => inOrder l ++ [t] ++ inOrder r

/-- The AVL tree object: root pointer plus id map (class AVLTree). -/
structure AVLTree where
  root : Tree
  idMap : IdMap
deriving Repr, DecidableEq

/-- The freshly constructed tree (`AVLTree() : root(nullptr)`). -/
def AVLTree.empty : AVLTree := ⟨Tree.nil, []⟩

/-- Public `insert`: duplicate-id check against the map, then `insertHelper`.
On a thrown duplicate-priority error the root assignment is skipped, so the
old root is kept together with whatever map state the helper left. -/
def AVLTree.insert (s : AVLTree) (task : Task) : AVLTree × Option Err :=
  if (mapFind s.idMap task.id).isSome then (s, some Err.duplicateId)
  else
    match insertHelper s.root task s.idMap with
    | (Except.ok rNew, mNew) => (⟨rNew, mNew⟩, none)
    | (Except.error e, mNew) => (⟨s.root, mNew⟩, some e)

/-- The insertion loop of `rebuild`: on a thrown error the loop stops and the
object keeps the half-finished tree. -/
def rebuildLoop : Tree → IdMap → List Task → Tree × IdMap × Option Err
  | t, m, [] => (t, m, none)
  | t, m, task :: rest =>
      match insertHelper t task m with
      | (Except.ok tNew, mNew) => rebuildLoop tNew mNew rest
      | (Except.error e, mNew) => (t, mNew, some e)

/-- Public `rebuild`: clears the tree and the map, then re-inserts every
task from the list in order. -/
def AVLTree.rebuild (_s : AVLTree) (tasks : List Task) : AVLTree × Option Err :=
  let r := rebuildLoop Tree.nil [] tasks
  (⟨r.1, r.2.1⟩, r.2.2)

/-- Public `search`: constant-time map lookup by id. -/
def AVLTree.search (s : AVLTree) (i : String) : Option Task :=
  mapFind s.idMap i

/-- Public `deleteTask`: id-presence check, then delete by the node's key
(`idMap[id]->key`, which equals the stored task's priority). -/
def AVLTree.deleteTask (s : AVLTree) (i : String) : AVLTree × Option Err :=
  match mapFind s.idMap i with
  | none => (s, some Err.notFound)
  | some tk =>
      let p := deleteHelper s.root tk.priority s.idMap
      (⟨p.1, p.2⟩, none)

/-- Public `listTasks`: in-order traversal, ascending by key. -/
def AVLTree.listTasks (s : AVLTree) : List Task := inOrder s.root

/-!
## The ordering policy of Main.cpp

The interactive shell's pure content: deadline conversion, insertion ranking,
and the status-change renumbering.  The two `std::sort` calls are modelled by
a deterministic insertion sort (`sortTasks`), which is one admissible
`std::sort` outcome; for the call sites where the comparator keys are unique
the outcome is uniquely determined, and `IsCppSortedBy` below captures the
full nondeterministic `std::sort` contract where ties matter.
-/

/-- Copy a task with a new priority. -/
def withPriority (t : Task) (p : Int) : Task :=
  ⟨t.id, t.description, t.deadlineDetails, p, t.category, t.status, t.remainingHours⟩

/-- Copy a task with a new status. -/
def withStatus (t : Task) (st : String) : Task :=
  ⟨t.id, t.description, t.deadlineDetails, t.priority, t.category, st, t.remainingHours⟩

/-- The deadline conversion of Main.cpp lines 102-109: hours are solicited
(and added) only when years, months and days are all zero. -/
def computeRemainingHours (years months days hoursIn : Int) : Int :=
  let hours := if years = 0 ∧ months = 0 ∧ days = 0 then hoursIn else 0
  years * 365 * 24 + months * 30 * 24 + days * 24 + hours

/-- The deadline rendering of Main.cpp lines 110-113. -/
def deadlineString (years months days hoursIn : Int) : String :=
  let base := toString years ++ " year(s), " ++ toString months ++ " month(s), " ++
    toString days ++ " day(s)"
  if years = 0 ∧ months = 0 ∧ days = 0 then base ++ ", " ++ toString hoursIn ++ " hour(s)"
  else base

/-- The rank computation of Main.cpp lines 118-148: returns the new task's
priority and the current task list with the shifts applied. -/
def insertRank (tasks : List Task) (status : String) (hrs : Int) : Int × List Task :=
  if status = "complete" then
    match tasks.getLast? with
    | some back => (back.priority + 1, tasks)
    | none => (1, tasks)
  else
    match tasks with
    | [] => (1, [])
    | first :: rest =>
        let back := (first :: rest).getLast (List.cons_ne_nil first rest)
        if hrs < first.remainingHours then
          (1, (first :: rest).map (fun t => withPriority t (t.priority + 1)))
        else if hrs ≥ back.remainingHours then
          (back.priority + 1, first :: rest)
        else
          let p :=
            match (first :: rest).find? (fun t => decide (hrs < t.remainingHours)) with
            | some t => t.priority
            | none => 1
          (p, (first :: rest).map (fun t =>
            if t.priority ≥ p then withPriority t (t.priority + 1) else t))

/-- Stable insertion into a sorted list (auxiliary for `sortTasks`). -/
def insertSorted (le : Task → Task → Bool) (t : Task) : List Task → List Task
  | [] => [t]
  | u :: rest => if le t u then t :: u :: rest else u :: insertSorted le t rest

/-- Deterministic sort modelling the `std::sort` calls of Main.cpp. -/
def sortTasks (le : Task → Task → Bool) : List Task → List Task
  | [] => []
  | t :: rest => insertSorted le t (sortTasks le rest)

/-- The insert operation (menu choice 1) of Main.cpp: duplicate-id guard,
status fixed to "incomplete", deadline computation, ranking, shift, append,
sort by priority, rebuild.  The external database write is out of scope. -/
def insertOp (s : AVLTree) (i desc category : String)
    (years months days hoursIn : Int) : AVLTree :=
  if (s.search i).isSome then s
  else
    let status := "incomplete"
    let totalRemainingHours :=
      if status = "incomplete" then computeRemainingHours years months days hoursIn else 0
    let deadlineStr :=
      if status = "incomplete" then deadlineString years months days hoursIn else "N/A"
    let tasks := s.listTasks
    let rk := insertRank tasks status totalRemainingHours
    let newTask : Task := ⟨i, desc, deadlineStr, rk.1, category, status, totalRemainingHours⟩
    let sorted := sortTasks (fun a b => decide (a.priority ≤ b.priority)) (rk.2 ++ [newTask])
    (s.rebuild sorted).1

/-- The first-match status write of Main.cpp lines 179-185 (loop with break). -/
def setStatusFirst : List Task → String → String → List Task
  | [], _, _ => []
  | t :: rest, i, st =>
      if t.id = i then withStatus t st :: rest
      else t :: setStatusFirst rest i st

/-- The positional renumbering of Main.cpp lines 210-213. -/
def renumberFrom : Int → List Task → List Task
  | _, [] => []
  | p, t :: rest => withPriority t p :: renumberFrom (p + 1) rest

/-- The status-update operation (menu choice 2) of Main.cpp: the answer 'y'
maps to "complete" and 'n' to "incomplete"; the chosen task's status is
overwritten, the list is partitioned into incomplete/complete, each part is
sorted (`std::sort`), concatenated, renumbered 1..N and committed by rebuild. -/
def statusChangeOp (s : AVLTree) (i : String) (answerYes : Bool) : AVLTree :=
  match s.search i with
  | none => s
  | some _ =>
      let newStatus := if answerYes then "complete" else "incomplete"
      let tasks0 := s.listTasks
      if tasks0.all (fun t => !(t.id == i)) then s
      else
        let tasks := setStatusFirst tasks0 i newStatus
        let inc := tasks.filter (fun t => t.status == "incomplete")
        let comp := tasks.filter (fun t => !(t.status == "incomplete"))
        let incSorted := sortTasks (fun a b => decide (a.remainingHours ≤ b.remainingHours)) inc
        let compSorted := sortTasks (fun a b => decide (a.priority ≤ b.priority)) comp
        let renumbered := renumberFrom 1 (incSorted ++ compSorted)
        (s.rebuild renumbered).1

/-- The delete operation (menu choice 3) of Main.cpp: `deleteTask` on the
tree; on failure the error is printed and the state is kept.  No renumbering
and no rebuild happen on this path. -/
def deleteOp (s : AVLTree) (i : String) : AVLTree :=
  (s.deleteTask i).1

/-- The `std::sort` postcondition for a strict comparator `lt`: the output is
a permutation of the input and adjacent elements are never strictly
descending.  Stability is deliberately absent: `std::sort` does not promise
it. -/
def IsCppSortedBy (lt : Task → Task → Prop) (input output : List Task) : Prop :=
  output.Perm input ∧ output.Chain' (fun a b => ¬ lt b a)

/-- The set of list-level outcomes the status-change reordering (Main.cpp
lines 191-213) may commit, with both `std::sort` calls modelled by their
contract rather than one implementation. -/
def statusChangeOutcome (tasks0 : List Task) (i : String) (answerYes : Bool)
    (out : List Task) : Prop :=
  let newStatus := if answerYes then "complete" else "incomplete"
  let tasks := setStatusFirst tasks0 i newStatus
  ∃ incSorted compSorted,
    IsCppSortedBy (fun a b => a.remainingHours < b.remainingHours)
      (tasks.filter (fun t => t.status == "incomplete")) incSorted ∧
    IsCppSortedBy (fun a b => a.priority < b.priority)
      (tasks.filter (fun t => !(t.status == "incomplete"))) compSorted ∧
    out = renumberFrom 1 (incSorted ++ compSorted)

/-!
## Invariants from the spec (section 3 and section 8)
-/

/-- P1/I1 (density): the live priorities are exactly the range 1..N. -/
def densityOk (l : List Task) : Prop :=
  (l.map Task.priority).Perm ((List.range l.length).map (fun n : Nat => (n : Int) + 1))

/-- P2/I2 (partition): every incomplete task's priority precedes every
complete task's priority. -/
def partitionOk (l : List Task) : Prop :=
  ∀ a ∈ l, ∀ b ∈ l, a.status = "incomplete" → b.status = "complete" →
    a.priority < b.priority

/-- P3/I3 (deadline order) restricted to its order clause: among incomplete
tasks, ascending priority gives ascending remaining hours. -/
def deadlineOrderOk (l : List Task) : Prop :=
  ∀ a ∈ l, ∀ b ∈ l, a.status = "incomplete" → b.status = "incomplete" →
    a.priority < b.priority → a.remainingHours ≤ b.remainingHours

/-- I5 (id uniqueness) for a task list. -/
def idsUnique (l : List Task) : Prop :=
  (l.map Task.id).Nodup

instance (l : List Task) : Decidable (densityOk l) := by
  unfold densityOk; infer_instance

instance (l : List Task) : Decidable (partitionOk l) := by
  unfold partitionOk; infer_instance

instance (l : List Task) : Decidable (deadlineOrderOk l) := by
  unfold deadlineOrderOk; infer_instance

instance (l : List Task) : Decidable (idsUnique l) := by
  unfold idsUnique; infer_instance

/-!
## Concrete scenario states

The state chain of the spec's section 8 scenarios, built by the embedded
operations from the empty index: three insertions with remaining hours
10, 5, 20 (Scenario A), marking the 10h task complete (Scenario B), then
deleting the 20h task (Scenario C).
-/

/-- Scenario A step 1: insert the 10h task. -/
def scenA1 : AVLTree := insertOp AVLTree.empty "A" "first" "work" 0 0 0 10

/-- Scenario A step 2: insert the 5h task. -/
def scenA2 : AVLTree := insertOp scenA1 "B" "second" "work" 0 0 0 5

/-- Scenario A complete: insert the 20h task. -/
def scenA : AVLTree := insertOp scenA2 "C" "third" "work" 0 0 0 20

/-- Scenario B: mark the 10h task (id "A") complete. -/
def scenB : AVLTree := statusChangeOp scenA "A" true

/-- Scenario C: delete the 20h task (id "C") from Scenario B's state. -/
def scenC : AVLTree := deleteOp scenB "C"

/-- The incomplete-status branch of `insertRank` alone (the spec words for
the new-task ranking of an incomplete task).  Used to state that the
complete-status branch of the source is unreachable: `insertOp` always ranks
through this function. -/
def insertRankIncompleteOnly (tasks : List Task) (hrs : Int) : Int × List Task :=
  match tasks with
  | [] => (1, [])
  | first :: rest =>
      let back := (first :: rest).getLast (List.cons_ne_nil first rest)
      if hrs < first.remainingHours then
        (1, (first :: rest).map (fun t => withPriority t (t.priority + 1)))
      else if hrs ≥ back.remainingHours then
        (back.priority + 1, first :: rest)
      else
        let p :=
          match (first :: rest).find? (fun t => decide (hrs < t.remainingHours)) with
          | some t => t.priority
          | none => 1
        (p, (first :: rest).map (fun t =>
          if t.priority ≥ p then withPriority t (t.priority + 1) else t))

/-!
## Tree predicates
-/

/-- In-order list of the node keys. -/
def treeKeys : Tree → List Int
  | .nil => []
  | .node l _ k _ r => treeKeys l ++ [k] ++ treeKeys r

/-- The binary-search-tree property on the key fields. -/
def Ordered : Tree → Prop
  | .nil => True
  | .node l _ k _ r =>
      Ordered l ∧ Ordered r ∧ (∀ x ∈ treeKeys l, x < k) ∧ (∀ x ∈ treeKeys r, k < x)

/-- Decidability of `Ordered`, by the same recursion. -/
def Ordered.dec : (t : Tree) → Decidable (Ordered t)
  | .nil => Decidable.isTrue trivial
  | .node l _tk _k _h r =>
      letI := Ordered.dec l
      letI := Ordered.dec r
      inferInstanceAs (Decidable (Ordered l ∧ Ordered r ∧ _ ∧ _))

instance (t : Tree) : Decidable (Ordered t) := Ordered.dec t

/-- Every node's key field equals its task's priority (true by construction:
nodes are created with `key(t.priority)` and the deletion copy moves task and
key together). -/
def KeysMatch : Tree → Prop
  | .nil => True
  | .node l t k _ r => KeysMatch l ∧ KeysMatch r ∧ k = t.priority

/-- Decidability of `KeysMatch`. -/
def KeysMatch.dec : (t : Tree) → Decidable (KeysMatch t)
  | .nil => Decidable.isTrue trivial
  | .node l _tk _k _h r =>
      letI := KeysMatch.dec l
      letI := KeysMatch.dec r
      inferInstanceAs (Decidable (KeysMatch l ∧ KeysMatch r ∧ _))

instance (t : Tree) : Decidable (KeysMatch t) := KeysMatch.dec t

/-- The true height of a tree, recomputed from the structure. -/
def realHeight : Tree → Nat
  | .nil => 0
  | .node l _ _ _ r => 1 + max (realHeight l) (realHeight r)

/-- The AVL shape invariant: cached heights are correct and every node's
subtree heights differ by at most one. -/
def Avl : Tree → Prop
  | .nil => True
  | .node l _ _ h r =>
      Avl l ∧ Avl r ∧ h = 1 + max (realHeight l) (realHeight r) ∧
      realHeight l ≤ realHeight r + 1 ∧ realHeight r ≤ realHeight l + 1

/-- Decidability of `Avl`. -/
def Avl.dec : (t : Tree) → Decidable (Avl t)
  | .nil => Decidable.isTrue trivial
  | .node l _tk _k _h r =>
      letI := Avl.dec l
      letI := Avl.dec r
      inferInstanceAs (Decidable (Avl l ∧ Avl r ∧ _ ∧ _ ∧ _))

instance (t : Tree) : Decidable (Avl t) := Avl.dec t

/-- The node as `updateHeight` recomputes it: `updateHeight (.node l t k h r)`
equals `mkNode l t k r` for every cached `h`. -/
def mkNode (l : Tree) (tk : Task) (k : Int) (r : Tree) : Tree :=
  .node l tk k (1 + max (getHeight l) (getHeight r)) r

/-- Every node's balance factor, as the code computes it from the cached
heights, has magnitude at most one. -/
def BalancedFactors : Tree → Prop
  | .nil => True
  | .node l t k h r =>
      BalancedFactors l ∧ BalancedFactors r ∧
      -(1 : Int) ≤ getBalance (.node l t k h r) ∧ getBalance (.node l t k h r) ≤ 1

/-- Decidability of `BalancedFactors`. -/
def BalancedFactors.dec : (t : Tree) → Decidable (BalancedFactors t)
  | .nil => Decidable.isTrue trivial
  | .node l _tk _k _h r =>
      letI := BalancedFactors.dec l
      letI := BalancedFactors.dec r
      inferInstanceAs (Decidable (BalancedFactors l ∧ BalancedFactors r ∧ _ ∧ _))

instance (t : Tree) : Decidable (BalancedFactors t) := BalancedFactors.dec t

/-- The states reachable through the index operations (any interleaving of
inserts, deletes and rebuilds, and the shell operations built on them). -/
inductive Reachable : AVLTree → Prop where
  | empty : Reachable AVLTree.empty
  | insert (s : AVLTree) (t : Task) : Reachable s → Reachable (s.insert t).1
  | delete (s : AVLTree) (i : String) : Reachable s → Reachable (s.deleteTask i).1
  | rebuild (s : AVLTree) (l : List Task) : Reachable s → Reachable (s.rebuild l).1
  | insertShell (s : AVLTree) (i desc category : String) (years months days hoursIn : Int) :
      Reachable s → Reachable (insertOp s i desc category years months days hoursIn)
  | statusShell (s : AVLTree) (i : String) (ans : Bool) :
      Reachable s → Reachable (statusChangeOp s i ans)
  | deleteShell (s : AVLTree) (i : String) :
      Reachable s → Reachable (deleteOp s i)

/-!
## Concrete fixtures for the remaining claims
-/

/-- A task at priority 1 (fixture). -/
def bugT1 : Task := ⟨"b", "beta", "dl1", 1, "cat", "incomplete", 5⟩

/-- A task at priority 2 (fixture). -/
def bugT2 : Task := ⟨"a", "alpha", "dl2", 2, "cat", "incomplete", 10⟩

/-- A task at priority 3 (fixture). -/
def bugT3 : Task := ⟨"c", "gamma", "dl3", 3, "cat", "incomplete", 20⟩

/-- Index holding b(1), a(2), c(3); the tree has a(2) at the root with two
children. -/
def mapBugStart : AVLTree := (AVLTree.empty.rebuild [bugT1, bugT2, bugT3]).1

/-- The state after deleting id "a" (a two-child node) from `mapBugStart`. -/
def mapBugAfter : AVLTree := (mapBugStart.deleteTask "a").1

/-- Incomplete 5h task at priority 1 (fixture for the partition claim). -/
def partX : Task := ⟨"x", "dx", "dlx", 1, "cx", "incomplete", 5⟩

/-- Complete 10h task at priority 2 (fixture for the partition claim). -/
def partY : Task := ⟨"y", "dy", "dly", 2, "cy", "complete", 10⟩

/-- Index holding the incomplete 5h task and the complete 10h task. -/
def partStart : AVLTree := (AVLTree.empty.rebuild [partX, partY]).1

/-- State `partStart` after inserting a new incomplete task with 20 remaining
hours. -/
def partAfter : AVLTree := insertOp partStart "z" "dz" "cz" 0 0 0 20

/-- Incomplete task, 7 remaining hours, priority 1 (tie fixture). -/
def tieA : Task := ⟨"a", "da", "dla", 1, "ca", "incomplete", 7⟩

/-- Incomplete task, 7 remaining hours, priority 2 (tie fixture). -/
def tieB : Task := ⟨"b", "db", "dlb", 2, "cb", "incomplete", 7⟩

/-- State with a single freshly inserted 5h task "a". -/
def revA : AVLTree := insertOp AVLTree.empty "a" "d" "c" 0 0 0 5

/-- State `revA` after marking "a" complete (answer y). -/
def revB : AVLTree := statusChangeOp revA "a" true

/-- State `revB` after running the status update on "a" with answer n. -/
def revC : AVLTree := statusChangeOp revB "a" false

/-- A task at priority 1 with id "p" (fixture for exception safety). -/
def safeU : Task := ⟨"p", "dp", "dlp", 1, "cp", "incomplete", 1⟩

/-- Index holding only `safeU`. -/
def safeS : AVLTree := (AVLTree.empty.rebuild [safeU]).1

/-- A task with fresh id "q" but the duplicate priority 1. -/
def dupQ : Task := ⟨"q", "dq", "dlq", 1, "cq", "incomplete", 1⟩

/-- A task with fresh id "r" at priority 1 as well. -/
def dupR : Task := ⟨"r", "dr", "dlr", 1, "cr", "incomplete", 2⟩

/-!
## Theorems

First a block of helper lemmas: rotations and height updates preserve the
in-order traversal and the key sequence; the sorts and renumbering are
permutations preserving the id/status content.
-/

theorem inOrder_updateHeight (t : Tree) : inOrder (updateHeight t) = inOrder t := by
  cases t <;> rfl

theorem treeKeys_updateHeight (t : Tree) : treeKeys (updateHeight t) = treeKeys t := by
  cases t <;> rfl

theorem inOrder_rotateLeft (t : Tree) : inOrder (rotateLeft t) = inOrder t := by
  match t with
  | .nil => rfl
  | .node l tk k h .nil => rfl
  | .node l tk k h (.node rl rt rk rh rr) =>
      simp [rotateLeft, inOrder_updateHeight, inOrder, List.append_assoc]

theorem inOrder_rotateRight (t : Tree) : inOrder (rotateRight t) = inOrder t := by
  match t with
  | .nil => rfl
  | .node .nil tk k h r => rfl
  | .node (.node ll lt lk lh lr) tk k h r =>
      simp [rotateRight, inOrder_updateHeight, inOrder, List.append_assoc]

theorem inOrder_rotateLeftRight (t : Tree) : inOrder (rotateLeftRight t) = inOrder t := by
  match t with
  | .nil => rfl
  | .node l tk k h r =>
      simp [rotateLeftRight, inOrder_rotateRight, inOrder, inOrder_rotateLeft]

theorem inOrder_rotateRightLeft (t : Tree) : inOrder (rotateRightLeft t) = inOrder t := by
  match t with
  | .nil => rfl
  | .node l tk k h r =>
      simp [rotateRightLeft, inOrder_rotateLeft, inOrder, inOrder_rotateRight]

theorem inOrder_balance (t : Tree) : inOrder (balance t) = inOrder t := by
  unfold balance
  by_cases h1 : getBalance t > 1
  · simp only [h1, if_true]
    by_cases h2 : getBalance (leftOf t) < 0 <;>
      simp [h2, inOrder_rotateLeftRight, inOrder_rotateRight]
  · simp only [h1, if_false]
    by_cases h3 : getBalance t < -1
    · simp only [h3, if_true]
      by_cases h4 : getBalance (rightOf t) > 0 <;>
        simp [h4, inOrder_rotateRightLeft, inOrder_rotateLeft]
    · simp [h3]

theorem treeKeys_rotateLeft (t : Tree) : treeKeys (rotateLeft t) = treeKeys t := by
  match t with
  | .nil => rfl
  | .node l tk k h .nil => rfl
  | .node l tk k h (.node rl rt rk rh rr) =>
      simp [rotateLeft, treeKeys_updateHeight, treeKeys, List.append_assoc]

theorem treeKeys_rotateRight (t : Tree) : treeKeys (rotateRight t) = treeKeys t := by
  match t with
  | .nil => rfl
  | .node .nil tk k h r => rfl
  | .node (.node ll lt lk lh lr) tk k h r =>
      simp [rotateRight, treeKeys_updateHeight, treeKeys, List.append_assoc]

theorem treeKeys_rotateLeftRight (t : Tree) : treeKeys (rotateLeftRight t) = treeKeys t := by
  match t with
  | .nil => rfl
  | .node l tk k h r =>
      simp [rotateLeftRight, treeKeys_rotateRight, treeKeys, treeKeys_rotateLeft]

theorem treeKeys_rotateRightLeft (t : Tree) : treeKeys (rotateRightLeft t) = treeKeys t := by
  match t with
  | .nil => rfl
  | .node l tk k h r =>
      simp [rotateRightLeft, treeKeys_rotateLeft, treeKeys, treeKeys_rotateRight]

theorem treeKeys_balance (t : Tree) : treeKeys (balance t) = treeKeys t := by
  unfold balance
  by_cases h1 : getBalance t > 1
  · simp only [h1, if_true]
    by_cases h2 : getBalance (leftOf t) < 0 <;>
      simp [h2, treeKeys_rotateLeftRight, treeKeys_rotateRight]
  · simp only [h1, if_false]
    by_cases h3 : getBalance t < -1
    · simp only [h3, if_true]
      by_cases h4 : getBalance (rightOf t) > 0 <;>
        simp [h4, treeKeys_rotateRightLeft, treeKeys_rotateLeft]
    · simp [h3]

theorem insertSorted_perm (le : Task → Task → Bool) (t : Task) (l : List Task) :
    (insertSorted le t l).Perm (t :: l) := by
  induction l with
  | nil => exact List.Perm.refl _
  | cons u rest ih =>
      unfold insertSorted
      by_cases h : le t u = true
      · rw [if_pos h]
      · rw [if_neg h]
        exact ((ih.cons u).trans (List.Perm.swap t u rest))

theorem sortTasks_perm (le : Task → Task → Bool) (l : List Task) :
    (sortTasks le l).Perm l := by
  induction l with
  | nil => exact List.Perm.refl _
  | cons t rest ih =>
      exact (insertSorted_perm le t (sortTasks le rest)).trans (ih.cons t)

theorem filter_partition_perm (p : Task → Bool) (l : List Task) :
    (l.filter p ++ l.filter (fun t => !(p t))).Perm l := by
  induction l with
  | nil => exact List.Perm.refl _
  | cons t rest ih =>
      by_cases h : p t = true
      · simpa [List.filter_cons, h] using ih.cons t
      · have hb : p t = false := by
          cases hp : p t
          · rfl
          · exact absurd hp h
        simpa [List.filter_cons, hb] using (List.perm_middle.trans (ih.cons t))

theorem renumberFrom_map_priority (p : Int) (l : List Task) :
    (renumberFrom p l).map Task.priority =
      (List.range l.length).map (fun n : Nat => (n : Int) + p) := by
  induction l generalizing p with
  | nil => rfl
  | cons t rest ih =>
      show p :: (renumberFrom (p + 1) rest).map Task.priority = _
      rw [ih (p + 1), List.length_cons, List.range_succ_eq_map, List.map_cons,
        List.map_map]
      refine congrArg₂ List.cons (by simp) ?_
      refine List.map_congr_left ?_
      intro n _
      simp only [Function.comp_apply]
      push_cast
      ring

theorem renumberFrom_map_id_status (p : Int) (l : List Task) :
    (renumberFrom p l).map (fun t => (t.id, t.status)) =
      l.map (fun t => (t.id, t.status)) := by
  induction l generalizing p with
  | nil => rfl
  | cons t rest ih => simp [renumberFrom, withPriority, ih]

theorem renumberFrom_pairwise (p : Int) (l : List Task) :
    List.Pairwise (· < ·) ((renumberFrom p l).map Task.priority) := by
  rw [renumberFrom_map_priority]
  refine (List.pairwise_lt_range l.length).map _ (fun a b h => ?_)
  show (a : Int) + p < (b : Int) + p
  omega

/-- C9: for all non-negative years, months, days and hours, the computed
remaining hours equal years*365*24 + months*30*24 + days*24 + h, with h the
entered hours when years = months = days = 0 and h = 0 otherwise. -/
theorem computeRemainingHours_linear (years months days hoursIn : Int)
    (_hy : 0 ≤ years) (_hm : 0 ≤ months) (_hd : 0 ≤ days) (_hh : 0 ≤ hoursIn) :
    computeRemainingHours years months days hoursIn =
      years * 365 * 24 + months * 30 * 24 + days * 24 +
        (if years = 0 ∧ months = 0 ∧ days = 0 then hoursIn else 0) := rfl

/-- Witness for C9 at years 1, months 2, days 3, hours 7 (hours ignored)
and at 0, 0, 0, 7 (hours counted). -/
theorem computeRemainingHours_linear_witness :
    computeRemainingHours 1 2 3 7 =
      1 * 365 * 24 + 2 * 30 * 24 + 3 * 24 +
        (if (1 : Int) = 0 ∧ (2 : Int) = 0 ∧ (3 : Int) = 0 then 7 else 0) ∧
    computeRemainingHours 0 0 0 7 =
      0 * 365 * 24 + 0 * 30 * 24 + 0 * 24 +
        (if (0 : Int) = 0 ∧ (0 : Int) = 0 ∧ (0 : Int) = 0 then 7 else 0) :=
  ⟨computeRemainingHours_linear 1 2 3 7 (by decide) (by decide) (by decide) (by decide),
   computeRemainingHours_linear 0 0 0 7 (by decide) (by decide) (by decide) (by decide)⟩

theorem insertRank_incomplete (tasks : List Task) (hrs : Int) :
    insertRank tasks "incomplete" hrs = insertRankIncompleteOnly tasks hrs := by
  unfold insertRank insertRankIncompleteOnly
  simp

theorem deadlineString_ne_sentinel (years months days hoursIn : Int) :
    deadlineString years months days hoursIn ≠ "N/A" := by
  intro h
  have hlen := congrArg String.length h
  unfold deadlineString at hlen
  have e1 : (" year(s), ").length = 10 := rfl
  have e2 : (" month(s), ").length = 11 := rfl
  have e3 : (" day(s)").length = 7 := rfl
  have e4 : (", ").length = 2 := rfl
  have e5 : (" hour(s)").length = 8 := rfl
  have e6 : ("N/A").length = 3 := rfl
  by_cases hc : years = 0 ∧ months = 0 ∧ days = 0
  · rw [if_pos hc] at hlen
    simp only [String.length_append] at hlen
    omega
  · rw [if_neg hc] at hlen
    simp only [String.length_append] at hlen
    omega

theorem insertHelper_append (t : Tree) (task : Task) (m : IdMap)
    (h : ∀ x ∈ treeKeys t, x < task.priority) :
    ∃ t2, insertHelper t task m = (Except.ok t2, mapSet m task.id task) ∧
      inOrder t2 = inOrder t ++ [task] ∧
      treeKeys t2 = treeKeys t ++ [task.priority] := by
  induction t generalizing m with
  | nil => exact ⟨.node .nil task task.priority 1 .nil, rfl, rfl, rfl⟩
  | node l tk k ht r ihl ihr =>
      have hk : k < task.priority := h k (by simp [treeKeys])
      obtain ⟨r2, hr2, hio, hkeys⟩ :=
        ihr m (fun x hx => h x (by simp [treeKeys, hx]))
      refine ⟨balance (updateHeight (.node l tk k ht r2)), ?_, ?_, ?_⟩
      · show insertHelper (.node l tk k ht r) task m = _
        unfold insertHelper
        rw [if_neg (by omega : ¬ task.priority < k),
          if_pos (by omega : task.priority > k), hr2]
      · rw [inOrder_balance, inOrder_updateHeight]
        simp [inOrder, hio, List.append_assoc]
      · rw [treeKeys_balance, treeKeys_updateHeight]
        simp [treeKeys, hkeys, List.append_assoc]

theorem rebuildLoop_ascending (l : List Task) (t : Tree) (m : IdMap)
    (h : List.Pairwise (· < ·) (treeKeys t ++ l.map Task.priority)) :
    (rebuildLoop t m l).2.2 = none ∧
    inOrder (rebuildLoop t m l).1 = inOrder t ++ l ∧
    treeKeys (rebuildLoop t m l).1 = treeKeys t ++ l.map Task.priority := by
  induction l generalizing t m with
  | nil => simp [rebuildLoop]
  | cons task rest ih =>
      have hlt : ∀ x ∈ treeKeys t, x < task.priority := by
        intro x hx
        exact (List.pairwise_append.mp h).2.2 x hx task.priority (by simp)
      obtain ⟨t2, heq, hio, hkeys⟩ := insertHelper_append t task m hlt
      have hpair : List.Pairwise (· < ·) (treeKeys t2 ++ rest.map Task.priority) := by
        rw [hkeys, List.append_assoc]
        simpa using h
      have hrec := ih t2 (mapSet m task.id task) hpair
      have hred : rebuildLoop t m (task :: rest) =
          rebuildLoop t2 (mapSet m task.id task) rest := by
        conv_lhs => rw [rebuildLoop]
        rw [heq]
      rw [hred]
      refine ⟨hrec.1, ?_, ?_⟩
      · rw [hrec.2.1, hio, List.append_assoc]
        rfl
      · rw [hrec.2.2, hkeys, List.append_assoc]
        rfl

theorem rebuild_listTasks (s : AVLTree) (l : List Task)
    (h : List.Pairwise (· < ·) (l.map Task.priority)) :
    (s.rebuild l).2 = none ∧ (s.rebuild l).1.listTasks = l ∧
    treeKeys (s.rebuild l).1.root = l.map Task.priority := by
  have hr := rebuildLoop_ascending l Tree.nil [] (by simpa using h)
  refine ⟨hr.1, ?_, ?_⟩
  · show inOrder (rebuildLoop Tree.nil [] l).1 = l
    rw [hr.2.1]
    rfl
  · show treeKeys (rebuildLoop Tree.nil [] l).1 = l.map Task.priority
    rw [hr.2.2]
    rfl

theorem ordered_pairwise (t : Tree) (h : Ordered t) :
    List.Pairwise (· < ·) (treeKeys t) := by
  induction t with
  | nil => exact List.Pairwise.nil
  | node l tk k ht r ihl ihr =>
      obtain ⟨hl, hr, hbl, hbr⟩ := h
      show List.Pairwise (· < ·) (treeKeys l ++ [k] ++ treeKeys r)
      refine List.pairwise_append.mpr ⟨?_, ihr hr, ?_⟩
      · refine List.pairwise_append.mpr ⟨ihl hl, List.pairwise_singleton _ _, ?_⟩
        intro x hx y hy
        rw [List.mem_singleton] at hy
        exact hy ▸ hbl x hx
      · intro x hx y hy
        rcases List.mem_append.mp hx with hxl | hxk
        · exact lt_trans (hbl x hxl) (hbr y hy)
        · rw [List.mem_singleton] at hxk
          exact hxk ▸ hbr y hy

theorem keysMatch_treeKeys (t : Tree) (h : KeysMatch t) :
    treeKeys t = (inOrder t).map Task.priority := by
  induction t with
  | nil => rfl
  | node l tk k ht r ihl ihr =>
      obtain ⟨hl, hr, hk⟩ := h
      show treeKeys l ++ [k] ++ treeKeys r = (inOrder l ++ [tk] ++ inOrder r).map _
      simp [ihl hl, ihr hr, hk]

/-- C7: for every index state whose tree is a search tree on the priority
keys (unique priority keys in particular), `rebuild(listTasks())` succeeds
and leaves `listTasks()` unchanged: the same tasks in the same
ascending-priority order. -/
theorem rebuild_roundtrip (s : AVLTree) (hO : Ordered s.root) (hK : KeysMatch s.root) :
    (s.rebuild s.listTasks).2 = none ∧
    (s.rebuild s.listTasks).1.listTasks = s.listTasks := by
  have hp : List.Pairwise (· < ·) (s.listTasks.map Task.priority) := by
    have hpw := ordered_pairwise s.root hO
    rwa [keysMatch_treeKeys s.root hK] at hpw
  have h := rebuild_listTasks s s.listTasks hp
  exact ⟨h.1, h.2.1⟩

/-- Witness for C7 at the concrete three-task index b(1), a(2), c(3). -/
theorem rebuild_roundtrip_witness :
    Ordered mapBugStart.root ∧ KeysMatch mapBugStart.root ∧
    (mapBugStart.rebuild mapBugStart.listTasks).2 = none ∧
    (mapBugStart.rebuild mapBugStart.listTasks).1.listTasks = mapBugStart.listTasks :=
  ⟨by decide, by decide,
   (rebuild_roundtrip mapBugStart (by decide) (by decide)).1,
   (rebuild_roundtrip mapBugStart (by decide) (by decide)).2⟩

theorem renumberFrom_length (p : Int) (l : List Task) :
    (renumberFrom p l).length = l.length := by
  induction l generalizing p with
  | nil => rfl
  | cons t rest ih => simp [renumberFrom, ih]

theorem densityOk_renumber (l : List Task) : densityOk (renumberFrom 1 l) := by
  unfold densityOk
  rw [renumberFrom_map_priority, renumberFrom_length]

theorem listTasks_rebuild_renumber (s : AVLTree) (l : List Task) :
    ((s.rebuild (renumberFrom 1 l)).1).listTasks = renumberFrom 1 l :=
  (rebuild_listTasks s _ (renumberFrom_pairwise 1 l)).2.1

theorem statusChangeOp_commits (s : AVLTree) (i : String) (ans : Bool)
    (h1 : (s.search i).isSome = true)
    (h2 : (s.listTasks.all (fun t => !(t.id == i))) = false) :
    statusChangeOp s i ans = (s.rebuild (renumberFrom 1 (
      sortTasks (fun a b => decide (a.remainingHours ≤ b.remainingHours))
        ((setStatusFirst s.listTasks i (if ans then "complete" else "incomplete")).filter
          (fun t => t.status == "incomplete")) ++
      sortTasks (fun a b => decide (a.priority ≤ b.priority))
        ((setStatusFirst s.listTasks i (if ans then "complete" else "incomplete")).filter
          (fun t => !(t.status == "incomplete")))))).1 := by
  obtain ⟨tsk, hs⟩ := Option.isSome_iff_exists.mp h1
  unfold statusChangeOp
  rw [hs]
  rw [if_neg (by simp [h2])]

/-- C1 amended: the density invariant is restored by every committed
status-change renumbering (priorities become exactly 1..N), but a committed
deletion does not renumber: deleting the 20h task from Scenario B's state
leaves the two remaining tasks with priorities 1 (5h task) and 3 (10h
complete task), a gap at priority 2. -/
theorem statusChange_density_delete_gap (s : AVLTree) (i : String) (ans : Bool)
    (h1 : (s.search i).isSome = true)
    (h2 : (s.listTasks.all (fun t => !(t.id == i))) = false) :
    densityOk ((statusChangeOp s i ans).listTasks) ∧
    scenC.listTasks.map (fun t => (t.id, t.priority)) = [("B", 1), ("A", 3)] := by
  refine ⟨?_, by decide⟩
  rw [statusChangeOp_commits s i ans h1 h2, listTasks_rebuild_renumber]
  exact densityOk_renumber _

/-- Witness for C1's amended theorem: the committed status change of
Scenario B restores density. -/
theorem statusChange_density_delete_gap_witness :
    (scenA.search "A").isSome = true ∧
    (scenA.listTasks.all (fun t => !(t.id == "A"))) = false ∧
    densityOk ((statusChangeOp scenA "A" true).listTasks) :=
  ⟨by decide, by decide,
   (statusChange_density_delete_gap scenA "A" true (by decide) (by decide)).1⟩

/-- C5 amended: the status update writes exactly the answer-determined
status into the chosen task (complete on answer y, incomplete on answer n)
and leaves every other task's id/status pair unchanged, up to reordering.
In particular answering n on a complete task moves it back to incomplete:
complete is not a terminal state. -/
theorem statusChangeOp_sets_status (s : AVLTree) (i : String) (ans : Bool)
    (h1 : (s.search i).isSome = true)
    (h2 : (s.listTasks.all (fun t => !(t.id == i))) = false) :
    ((statusChangeOp s i ans).listTasks.map (fun t => (t.id, t.status))).Perm
      ((setStatusFirst s.listTasks i (if ans then "complete" else "incomplete")).map
        (fun t => (t.id, t.status))) := by
  rw [statusChangeOp_commits s i ans h1 h2, listTasks_rebuild_renumber,
    renumberFrom_map_id_status]
  refine List.Perm.map _ ?_
  exact ((sortTasks_perm _ _).append (sortTasks_perm _ _)).trans
    (filter_partition_perm _ _)

/-- Witness for C5's amended theorem: answer n on the complete task of
`revB`. -/
theorem statusChangeOp_sets_status_witness :
    (revB.search "a").isSome = true ∧
    (revB.listTasks.all (fun t => !(t.id == "a"))) = false ∧
    ((statusChangeOp revB "a" false).listTasks.map (fun t => (t.id, t.status))).Perm
      ((setStatusFirst revB.listTasks "a" (if false then "complete" else "incomplete")).map
        (fun t => (t.id, t.status))) :=
  ⟨by decide, by decide, statusChangeOp_sets_status revB "a" false (by decide) (by decide)⟩

theorem insertHelper_error_keeps_map (t : Tree) (task : Task) :
    ∀ (m : IdMap) (e : Err), (insertHelper t task m).1 = Except.error e →
      (insertHelper t task m).2 = m := by
  induction t with
  | nil => intro m e h; simp [insertHelper] at h
  | node l tk k ht r ihl ihr =>
      intro m e h
      unfold insertHelper at h ⊢
      by_cases hc1 : task.priority < k
      · rw [if_pos hc1] at h ⊢
        rcases heq : insertHelper l task m with ⟨fst, snd⟩
        rw [heq] at h
        cases fst with
        | ok lNew => exact Except.noConfusion h
        | error e2 =>
            have hres := ihl m e2 (by rw [heq])
            rw [heq] at hres
            exact hres
      · rw [if_neg hc1] at h ⊢
        by_cases hc2 : task.priority > k
        · rw [if_pos hc2] at h ⊢
          rcases heq : insertHelper r task m with ⟨fst, snd⟩
          rw [heq] at h
          cases fst with
          | ok rNew => exact Except.noConfusion h
          | error e2 =>
              have hres := ihr m e2 (by rw [heq])
              rw [heq] at hres
              exact hres
        · rw [if_neg hc2] at h ⊢

/-- C6 amended: insert failing with DuplicateId or DuplicatePriorityKey and
delete failing with NotFound leave the Index exactly as it was (tree and id
map, hence listTasks); rebuild of a list containing a duplicate priority key
is the exception — it discards the old contents first and keeps only the
half-rebuilt prefix (see the counterexample). -/
theorem failed_ops_leave_index_unchanged (s : AVLTree) (t : Task) (i : String)
    (e1 e2 : Err)
    (h1 : (s.insert t).2 = some e1) (h2 : (s.deleteTask i).2 = some e2) :
    (s.insert t).1 = s ∧ (s.deleteTask i).1 = s := by
  constructor
  · unfold AVLTree.insert at h1 ⊢
    by_cases hdup : (mapFind s.idMap t.id).isSome
    · rw [if_pos hdup] at h1 ⊢
    · rw [if_neg hdup] at h1 ⊢
      rcases heq : insertHelper s.root t s.idMap with ⟨fst, snd⟩
      rw [heq] at h1
      cases fst with
      | ok rNew => exact Option.noConfusion h1
      | error e =>
          have hm := insertHelper_error_keeps_map s.root t s.idMap e (by rw [heq])
          rw [heq] at hm
          have hm2 : snd = s.idMap := hm
          show (⟨s.root, snd⟩ : AVLTree) = s
          rw [hm2]
  · unfold AVLTree.deleteTask at h2 ⊢
    rcases hf : mapFind s.idMap i with _ | tk
    · rfl
    · rw [hf] at h2
      exact Option.noConfusion h2

/-- Witness for C6's amended theorem: a duplicate-priority insert and a
missing-id delete against the one-task index both fail and leave it
unchanged. -/
theorem failed_ops_leave_index_unchanged_witness :
    (safeS.insert dupQ).2 = some Err.duplicatePriority ∧
    (safeS.deleteTask "zz").2 = some Err.notFound ∧
    (safeS.insert dupQ).1 = safeS ∧ (safeS.deleteTask "zz").1 = safeS :=
  ⟨by decide, by decide,
   (failed_ops_leave_index_unchanged safeS dupQ "zz" Err.duplicatePriority Err.notFound
      (by decide) (by decide)).1,
   (failed_ops_leave_index_unchanged safeS dupQ "zz" Err.duplicatePriority Err.notFound
      (by decide) (by decide)).2⟩

/-- C1 counterexample: running Scenario C (delete the 20h task "C" from
Scenario B's state, built by the embedded operations from the empty index)
leaves the remaining tasks with priorities 1 and 3 — not 1 and 2 — so the
density invariant P1 does not hold after that committed deletion, and there
is a gap at priority 2. -/
theorem scenC_density_fails :
    scenC.listTasks.map Task.priority = [1, 3] ∧
    scenC.listTasks.map Task.id = ["B", "A"] ∧
    ¬ densityOk scenC.listTasks := by
  refine ⟨by decide, by decide, by decide⟩

/-- C2: deleting a two-child node erases the in-order successor's id-map
entry without re-adding it.  Starting from the index b(1), a(2), c(3) (root
a with two children), deleting "a" succeeds, the tasks b and c stay live in
the tree (listTasks still returns both), yet search("c") now returns nothing
although search("c") returned the full record before the deletion. -/
theorem deleteTask_loses_successor_mapping :
    mapBugStart.search "c" = some bugT3 ∧
    (mapBugStart.deleteTask "a").2 = none ∧
    mapBugAfter.listTasks.map Task.id = ["b", "c"] ∧
    mapBugAfter.search "c" = none := by
  refine ⟨by decide, by decide, by decide, by decide⟩

/-- C3 counterexample: the state with tasks x (incomplete, 5h, priority 1)
and y (complete with frozen 10 remaining hours, priority 2) satisfies all
the invariants, yet inserting a new incomplete task z with 20 remaining
hours ranks it at last priority + 1 (comparing against the complete task's
frozen hours), committing a state where the incomplete z sits after the
complete y — the partition invariant I2/P2 is violated. -/
theorem insertOp_breaks_partition :
    densityOk partStart.listTasks ∧ partitionOk partStart.listTasks ∧
    deadlineOrderOk partStart.listTasks ∧ idsUnique partStart.listTasks ∧
    partAfter.listTasks.map (fun t => (t.id, t.priority, t.status)) =
      [("x", 1, "incomplete"), ("y", 2, "complete"), ("z", 3, "incomplete")] ∧
    ¬ partitionOk partAfter.listTasks := by
  refine ⟨by decide, by decide, by decide, by decide, by decide, by decide⟩

/-- C4: the status-change reordering sorts the incomplete subset with
`std::sort`, whose contract does not promise stability.  For the input list
a(priority 1), b(priority 2), both incomplete with equal remaining hours 7,
running the status update on "a" with answer n admits the committed outcome
b(priority 1), a(priority 2): an execution allowed by the sort contract in
which the two equal-hours tasks swap their prior relative order. -/
theorem statusChange_sort_not_stable :
    statusChangeOutcome [tieA, tieB] "a" false (renumberFrom 1 [tieB, tieA]) ∧
    [tieA, tieB].map (fun t => (t.id, t.remainingHours)) = [("a", 7), ("b", 7)] ∧
    (renumberFrom 1 [tieB, tieA]).map (fun t => (t.id, t.priority)) =
      [("b", 1), ("a", 2)] := by
  refine ⟨⟨[tieB, tieA], [], ⟨by decide, ?_⟩, ⟨by decide, by simp⟩, by decide⟩,
    by decide, by decide⟩
  rw [List.chain'_cons]
  exact ⟨by decide, List.chain'_singleton ..⟩

/-- C5 counterexample: statuses do move back.  Insert task "a" (incomplete),
mark it complete with answer y, then run the status update again with answer
n: the task's status returns to "incomplete", so complete is not terminal. -/
theorem status_reverts_to_incomplete :
    (revB.search "a").map Task.status = some "complete" ∧
    (revC.search "a").map Task.status = some "incomplete" := by
  refine ⟨by decide, by decide⟩

/-- C6 counterexample: `rebuild` of a list containing a duplicate priority
key fails with DuplicatePriorityKey but does NOT leave the Index unchanged:
from the state holding task p, rebuilding with [q(priority 1), r(priority
1)] stops at the duplicate and leaves the half-rebuilt index holding
only q — neither the old contents nor the requested list. -/
theorem rebuild_duplicate_not_unchanged :
    (safeS.rebuild [dupQ, dupR]).2 = some Err.duplicatePriority ∧
    (safeS.rebuild [dupQ, dupR]).1.listTasks.map Task.id = ["q"] ∧
    safeS.listTasks.map Task.id = ["p"] ∧
    (safeS.rebuild [dupQ, dupR]).1 ≠ safeS := by
  refine ⟨by decide, by decide, by decide, by decide⟩

theorem insertOp_eq (s : AVLTree) (i desc category : String)
    (years months days hoursIn : Int) :
    insertOp s i desc category years months days hoursIn =
      (if (s.search i).isSome then s
       else
         (s.rebuild (sortTasks (fun a b => decide (a.priority ≤ b.priority))
           ((insertRankIncompleteOnly s.listTasks
              (computeRemainingHours years months days hoursIn)).2 ++
            [⟨i, desc, deadlineString years months days hoursIn,
              (insertRankIncompleteOnly s.listTasks
                (computeRemainingHours years months days hoursIn)).1,
              category, "incomplete",
              computeRemainingHours years months days hoursIn⟩]))).1) := by
  unfold insertOp
  simp [insertRank_incomplete]

/-- C10 (implicit): every task created through the insertion operation has
status "incomplete" and a computed deadline rendering (never the "N/A"
sentinel), and the branch ranking an already-complete new task is
unreachable: the operation is the one that ranks through the
incomplete-status policy only. -/
theorem insertOp_only_creates_incomplete (s : AVLTree) (i desc category : String)
    (years months days hoursIn : Int) :
    insertOp s i desc category years months days hoursIn =
      (if (s.search i).isSome then s
       else
         (s.rebuild (sortTasks (fun a b => decide (a.priority ≤ b.priority))
           ((insertRankIncompleteOnly s.listTasks
              (computeRemainingHours years months days hoursIn)).2 ++
            [⟨i, desc, deadlineString years months days hoursIn,
              (insertRankIncompleteOnly s.listTasks
                (computeRemainingHours years months days hoursIn)).1,
              category, "incomplete",
              computeRemainingHours years months days hoursIn⟩]))).1) ∧
    deadlineString years months days hoursIn ≠ "N/A" :=
  ⟨insertOp_eq s i desc category years months days hoursIn,
   deadlineString_ne_sentinel years months days hoursIn⟩

/-!
## The AVL balance development (for the height-balance claim)
-/

theorem balance_unfold (t : Tree) :
    balance t =
      if getBalance t > 1 then
        (if getBalance (leftOf t) < 0 then rotateLeftRight t else rotateRight t)
      else if getBalance t < -1 then
        (if getBalance (rightOf t) > 0 then rotateRightLeft t else rotateLeft t)
      else t := rfl

theorem getHeight_eq (t : Tree) (h : Avl t) : getHeight t = realHeight t := by
  cases t with
  | nil => rfl
  | node l tk k ht r => exact h.2.2.1

theorem balance_noop (l r : Tree) (tk : Task) (k : Int)
    (hAl : Avl l) (hAr : Avl r)
    (hb1 : realHeight l ≤ realHeight r + 1) (hb2 : realHeight r ≤ realHeight l + 1) :
    balance (mkNode l tk k r) = mkNode l tk k r ∧
    Avl (mkNode l tk k r) ∧
    realHeight (mkNode l tk k r) = 1 + max (realHeight l) (realHeight r) := by
  have hgl := getHeight_eq l hAl
  have hgr := getHeight_eq r hAr
  have hbf : getBalance (mkNode l tk k r) = (realHeight l : Int) - realHeight r := by
    show ((getHeight l : Int) - getHeight r) = _
    rw [hgl, hgr]
  refine ⟨?_, ⟨hAl, hAr, by rw [hgl, hgr], hb1, hb2⟩, rfl⟩
  rw [balance_unfold, if_neg (by rw [hbf]; omega), if_neg (by rw [hbf]; omega)]

theorem rotateLeft_eq (l : Tree) (tk : Task) (k : Int) (h : Nat)
    (rl : Tree) (rt : Task) (rk : Int) (rh : Nat) (rr : Tree) :
    rotateLeft (.node l tk k h (.node rl rt rk rh rr)) =
      mkNode (mkNode l tk k rl) rt rk rr := rfl

theorem rotateRight_eq (ll : Tree) (lt2 : Task) (lk2 : Int) (lh2 : Nat) (lr : Tree)
    (tk : Task) (k : Int) (h : Nat) (r : Tree) :
    rotateRight (.node (.node ll lt2 lk2 lh2 lr) tk k h r) =
      mkNode ll lt2 lk2 (mkNode lr tk k r) := rfl

theorem rotateLeftRight_eq (ll : Tree) (lt2 : Task) (lk2 : Int) (lh2 : Nat)
    (lrl : Tree) (lrt : Task) (lrk : Int) (lrh : Nat) (lrr : Tree)
    (tk : Task) (k : Int) (h : Nat) (r : Tree) :
    rotateLeftRight (.node (.node ll lt2 lk2 lh2 (.node lrl lrt lrk lrh lrr)) tk k h r) =
      mkNode (mkNode ll lt2 lk2 lrl) lrt lrk (mkNode lrr tk k r) := rfl

theorem rotateRightLeft_eq (l : Tree) (tk : Task) (k : Int) (h : Nat)
    (rll : Tree) (rlt : Task) (rlk : Int) (rlh : Nat) (rlr : Tree)
    (rt : Task) (rk : Int) (rh : Nat) (rr : Tree) :
    rotateRightLeft (.node l tk k h (.node (.node rll rlt rlk rlh rlr) rt rk rh rr)) =
      mkNode (mkNode l tk k rll) rlt rlk (mkNode rlr rt rk rr) := rfl

theorem avl_join (a b : Tree) (t : Task) (key : Int)
    (hAa : Avl a) (hAb : Avl b)
    (hb1 : realHeight a ≤ realHeight b + 1) (hb2 : realHeight b ≤ realHeight a + 1) :
    Avl (mkNode a t key b) ∧
    realHeight (mkNode a t key b) = 1 + max (realHeight a) (realHeight b) := by
  have hga := getHeight_eq a hAa
  have hgb := getHeight_eq b hAb
  exact ⟨⟨hAa, hAb, by rw [hga, hgb], hb1, hb2⟩, rfl⟩

theorem balance_left (l r : Tree) (tk : Task) (k : Int)
    (hAl : Avl l) (hAr : Avl r) (hh : realHeight l = realHeight r + 2) :
    Avl (balance (mkNode l tk k r)) ∧
    (realHeight (balance (mkNode l tk k r)) = realHeight r + 2 ∨
     realHeight (balance (mkNode l tk k r)) = realHeight r + 3) := by
  rcases l with _ | ⟨ll, lt2, lk2, lh2, lr⟩
  · exact absurd hh (by simp only [realHeight]; omega)
  obtain ⟨hAll, hAlr, hlst, hlb1, hlb2⟩ := hAl
  have hgll := getHeight_eq ll hAll
  have hglr := getHeight_eq lr hAlr
  have hgr := getHeight_eq r hAr
  have hrl : realHeight (.node ll lt2 lk2 lh2 lr) =
      1 + max (realHeight ll) (realHeight lr) := rfl
  have hbf : getBalance (mkNode (.node ll lt2 lk2 lh2 lr) tk k r) = 2 := by
    show ((getHeight (.node ll lt2 lk2 lh2 lr) : Int) - getHeight r) = 2
    show ((lh2 : Int) - getHeight r) = 2
    rw [hgr]
    omega
  rw [balance_unfold, if_pos (by rw [hbf]; omega)]
  have hleft : leftOf (mkNode (.node ll lt2 lk2 lh2 lr) tk k r) =
      .node ll lt2 lk2 lh2 lr := rfl
  rw [hleft]
  have hbfl : getBalance (.node ll lt2 lk2 lh2 lr) =
      (realHeight ll : Int) - realHeight lr := by
    show ((getHeight ll : Int) - getHeight lr) = _
    rw [hgll, hglr]
  by_cases hcase : getBalance (.node ll lt2 lk2 lh2 lr) < 0
  · rw [if_pos hcase]
    rw [hbfl] at hcase
    have hlr1 : realHeight lr = realHeight r + 1 := by omega
    have hll1 : realHeight ll = realHeight r := by omega
    rcases lr with _ | ⟨lrl, lrt, lrk, lrh, lrr⟩
    · exact absurd hlr1 (by simp only [realHeight]; omega)
    obtain ⟨hAlrl, hAlrr, hlrst, hlrb1, hlrb2⟩ := hAlr
    have hrlr : realHeight (.node lrl lrt lrk lrh lrr) =
        1 + max (realHeight lrl) (realHeight lrr) := rfl
    rw [show mkNode (.node ll lt2 lk2 lh2 (.node lrl lrt lrk lrh lrr)) tk k r =
        .node (.node ll lt2 lk2 lh2 (.node lrl lrt lrk lrh lrr)) tk k
          (1 + max (getHeight (.node ll lt2 lk2 lh2 (.node lrl lrt lrk lrh lrr)))
            (getHeight r)) r from rfl,
      rotateLeftRight_eq]
    obtain ⟨hA1, hH1⟩ := avl_join ll lrl lt2 lk2 hAll hAlrl (by omega) (by omega)
    obtain ⟨hA2, hH2⟩ := avl_join lrr r tk k hAlrr hAr (by omega) (by omega)
    obtain ⟨hA3, hH3⟩ :=
      avl_join (mkNode ll lt2 lk2 lrl) (mkNode lrr tk k r) lrt lrk hA1 hA2
        (by omega) (by omega)
    exact ⟨hA3, Or.inl (by omega)⟩
  · rw [if_neg hcase]
    rw [hbfl] at hcase
    have hll1 : realHeight ll = realHeight r + 1 := by omega
    have hlrlow : realHeight r ≤ realHeight lr := by omega
    have hlrhigh : realHeight lr ≤ realHeight r + 1 := by omega
    rw [show mkNode (.node ll lt2 lk2 lh2 lr) tk k r =
        .node (.node ll lt2 lk2 lh2 lr) tk k
          (1 + max (getHeight (.node ll lt2 lk2 lh2 lr)) (getHeight r)) r from rfl,
      rotateRight_eq]
    obtain ⟨hA1, hH1⟩ := avl_join lr r tk k hAlr hAr (by omega) (by omega)
    obtain ⟨hA2, hH2⟩ :=
      avl_join ll (mkNode lr tk k r) lt2 lk2 hAll hA1 (by omega) (by omega)
    exact ⟨hA2, by omega⟩

theorem balance_right (l r : Tree) (tk : Task) (k : Int)
    (hAl : Avl l) (hAr : Avl r) (hh : realHeight r = realHeight l + 2) :
    Avl (balance (mkNode l tk k r)) ∧
    (realHeight (balance (mkNode l tk k r)) = realHeight l + 2 ∨
     realHeight (balance (mkNode l tk k r)) = realHeight l + 3) := by
  rcases r with _ | ⟨rl, rt, rk, rh, rr⟩
  · exact absurd hh (by simp only [realHeight]; omega)
  obtain ⟨hArl, hArr, hrst, hrb1, hrb2⟩ := hAr
  have hgrl := getHeight_eq rl hArl
  have hgrr := getHeight_eq rr hArr
  have hgl := getHeight_eq l hAl
  have hrr2 : realHeight (.node rl rt rk rh rr) =
      1 + max (realHeight rl) (realHeight rr) := rfl
  have hbf : getBalance (mkNode l tk k (.node rl rt rk rh rr)) = -2 := by
    show ((getHeight l : Int) - getHeight (.node rl rt rk rh rr)) = -2
    show ((getHeight l : Int) - rh) = -2
    rw [hgl]
    omega
  rw [balance_unfold, if_neg (by rw [hbf]; omega), if_pos (by rw [hbf]; omega)]
  have hright : rightOf (mkNode l tk k (.node rl rt rk rh rr)) =
      .node rl rt rk rh rr := rfl
  rw [hright]
  have hbfr : getBalance (.node rl rt rk rh rr) =
      (realHeight rl : Int) - realHeight rr := by
    show ((getHeight rl : Int) - getHeight rr) = _
    rw [hgrl, hgrr]
  by_cases hcase : getBalance (.node rl rt rk rh rr) > 0
  · rw [if_pos hcase]
    rw [hbfr] at hcase
    have hrl1 : realHeight rl = realHeight l + 1 := by omega
    have hrr1 : realHeight rr = realHeight l := by omega
    rcases rl with _ | ⟨rll, rlt, rlk, rlh, rlr⟩
    · exact absurd hrl1 (by simp only [realHeight]; omega)
    obtain ⟨hArll, hArlr, hrlst, hrlb1, hrlb2⟩ := hArl
    have hrrl : realHeight (.node rll rlt rlk rlh rlr) =
        1 + max (realHeight rll) (realHeight rlr) := rfl
    rw [show mkNode l tk k (.node (.node rll rlt rlk rlh rlr) rt rk rh rr) =
        .node l tk k
          (1 + max (getHeight l)
            (getHeight (.node (.node rll rlt rlk rlh rlr) rt rk rh rr)))
          (.node (.node rll rlt rlk rlh rlr) rt rk rh rr) from rfl,
      rotateRightLeft_eq]
    obtain ⟨hA1, hH1⟩ := avl_join l rll tk k hAl hArll (by omega) (by omega)
    obtain ⟨hA2, hH2⟩ := avl_join rlr rr rt rk hArlr hArr (by omega) (by omega)
    obtain ⟨hA3, hH3⟩ :=
      avl_join (mkNode l tk k rll) (mkNode rlr rt rk rr) rlt rlk hA1 hA2
        (by omega) (by omega)
    exact ⟨hA3, Or.inl (by omega)⟩
  · rw [if_neg hcase]
    rw [hbfr] at hcase
    have hrr1 : realHeight rr = realHeight l + 1 := by omega
    have hrlow : realHeight l ≤ realHeight rl := by omega
    have hrhigh : realHeight rl ≤ realHeight l + 1 := by omega
    rw [show mkNode l tk k (.node rl rt rk rh rr) =
        .node l tk k (1 + max (getHeight l) (getHeight (.node rl rt rk rh rr)))
          (.node rl rt rk rh rr) from rfl,
      rotateLeft_eq]
    obtain ⟨hA1, hH1⟩ := avl_join l rl tk k hAl hArl (by omega) (by omega)
    obtain ⟨hA2, hH2⟩ :=
      avl_join (mkNode l tk k rl) rr rt rk hA1 hArr (by omega) (by omega)
    exact ⟨hA2, by omega⟩

theorem insertHelper_avl (t : Tree) (task : Task) :
    ∀ (m : IdMap) (t2 : Tree) (m2 : IdMap),
      insertHelper t task m = (Except.ok t2, m2) → Avl t →
      Avl t2 ∧ (realHeight t2 = realHeight t ∨ realHeight t2 = realHeight t + 1) := by
  induction t with
  | nil =>
      intro m t2 m2 h _
      have h1 : Except.ok (Tree.node .nil task task.priority 1 .nil) = Except.ok t2 :=
        congrArg Prod.fst h
      have h2 : Tree.node .nil task task.priority 1 .nil = t2 := by injection h1
      subst h2
      have h0 : realHeight Tree.nil = 0 := rfl
      refine ⟨⟨trivial, trivial, by omega, by omega, by omega⟩, Or.inr ?_⟩
      show 1 + max (realHeight Tree.nil) (realHeight Tree.nil) = 0 + 1
      omega
  | node l tk k ht r ihl ihr =>
      intro m t2 m2 h hAvl
      obtain ⟨hAl, hAr, hst, hb1, hb2⟩ := hAvl
      have hrt : realHeight (.node l tk k ht r) =
          1 + max (realHeight l) (realHeight r) := rfl
      unfold insertHelper at h
      by_cases hc1 : task.priority < k
      · rw [if_pos hc1] at h
        rcases heq : insertHelper l task m with ⟨fst, snd⟩
        rw [heq] at h
        cases fst with
        | error e => exact absurd (congrArg Prod.fst h) (by simp)
        | ok lNew =>
            have h1 : Except.ok (balance (updateHeight (.node lNew tk k ht r))) =
                Except.ok t2 := congrArg Prod.fst h
            have h2 : balance (updateHeight (.node lNew tk k ht r)) = t2 := by injection h1
            subst h2
            obtain ⟨hAl2, hh2⟩ := ihl m lNew snd heq hAl
            rw [show updateHeight (.node lNew tk k ht r) = mkNode lNew tk k r from rfl]
            by_cases hbal : realHeight lNew ≤ realHeight r + 1
            · obtain ⟨heq2, hA2, hH2⟩ := balance_noop lNew r tk k hAl2 hAr hbal (by omega)
              rw [heq2]
              exact ⟨hA2, by omega⟩
            · have himb : realHeight lNew = realHeight r + 2 := by omega
              obtain ⟨hA3, hH3⟩ := balance_left lNew r tk k hAl2 hAr himb
              exact ⟨hA3, by omega⟩
      · rw [if_neg hc1] at h
        by_cases hc2 : task.priority > k
        · rw [if_pos hc2] at h
          rcases heq : insertHelper r task m with ⟨fst, snd⟩
          rw [heq] at h
          cases fst with
          | error e => exact absurd (congrArg Prod.fst h) (by simp)
          | ok rNew =>
              have h1 : Except.ok (balance (updateHeight (.node l tk k ht rNew))) =
                  Except.ok t2 := congrArg Prod.fst h
              have h2 : balance (updateHeight (.node l tk k ht rNew)) = t2 := by injection h1
              subst h2
              obtain ⟨hAr2, hh2⟩ := ihr m rNew snd heq hAr
              rw [show updateHeight (.node l tk k ht rNew) = mkNode l tk k rNew from rfl]
              by_cases hbal : realHeight rNew ≤ realHeight l + 1
              · obtain ⟨heq2, hA2, hH2⟩ := balance_noop l rNew tk k hAl hAr2 (by omega) hbal
                rw [heq2]
                exact ⟨hA2, by omega⟩
              · have himb : realHeight rNew = realHeight l + 2 := by omega
                obtain ⟨hA3, hH3⟩ := balance_right l rNew tk k hAl hAr2 himb
                exact ⟨hA3, by omega⟩
        · rw [if_neg hc2] at h
          exact absurd (congrArg Prod.fst h) (by simp)

theorem findMin_is_node (t : Tree) (h : t ≠ Tree.nil) :
    ∃ a tk2 k2 h2 b, findMin t = Tree.node a tk2 k2 h2 b := by
  induction t with
  | nil => exact absurd rfl h
  | node l tk k ht r ihl ihr =>
      cases l with
      | nil => exact ⟨_, _, _, _, _, rfl⟩
      | node a b2 c d e =>
          obtain ⟨x1, x2, x3, x4, x5, hx⟩ := ihl (by simp)
          exact ⟨x1, x2, x3, x4, x5, hx⟩

theorem deleteHelper_avl (t : Tree) :
    ∀ (key : Int) (m : IdMap), Avl t →
      Avl (deleteHelper t key m).1 ∧
      (realHeight (deleteHelper t key m).1 = realHeight t ∨
       realHeight (deleteHelper t key m).1 + 1 = realHeight t) := by
  induction t with
  | nil => intro key m _; exact ⟨trivial, Or.inl rfl⟩
  | node l tk k ht r ihl ihr =>
      intro key m hAvl
      obtain ⟨hAl, hAr, hst, hb1, hb2⟩ := hAvl
      have hrt : realHeight (.node l tk k ht r) =
          1 + max (realHeight l) (realHeight r) := rfl
      unfold deleteHelper
      by_cases hc1 : key < k
      · rw [if_pos hc1]
        obtain ⟨hA1, hh1⟩ := ihl key m hAl
        show Avl (balance (updateHeight (.node (deleteHelper l key m).1 tk k ht r))) ∧
          (realHeight (balance (updateHeight (.node (deleteHelper l key m).1 tk k ht r))) =
             realHeight (.node l tk k ht r) ∨
           realHeight (balance (updateHeight (.node (deleteHelper l key m).1 tk k ht r))) + 1 =
             realHeight (.node l tk k ht r))
        rw [show updateHeight (.node (deleteHelper l key m).1 tk k ht r) =
            mkNode (deleteHelper l key m).1 tk k r from rfl]
        by_cases hbal : realHeight r ≤ realHeight (deleteHelper l key m).1 + 1
        · obtain ⟨heq2, hA2, hH2⟩ :=
            balance_noop (deleteHelper l key m).1 r tk k hA1 hAr (by omega) hbal
          rw [heq2]
          exact ⟨hA2, by omega⟩
        · have himb : realHeight r = realHeight (deleteHelper l key m).1 + 2 := by omega
          obtain ⟨hA3, hH3⟩ :=
            balance_right (deleteHelper l key m).1 r tk k hA1 hAr himb
          exact ⟨hA3, by omega⟩
      · rw [if_neg hc1]
        by_cases hc2 : key > k
        · rw [if_pos hc2]
          obtain ⟨hA1, hh1⟩ := ihr key m hAr
          show Avl (balance (updateHeight (.node l tk k ht (deleteHelper r key m).1))) ∧
            (realHeight (balance (updateHeight (.node l tk k ht (deleteHelper r key m).1))) =
               realHeight (.node l tk k ht r) ∨
             realHeight (balance (updateHeight (.node l tk k ht (deleteHelper r key m).1))) + 1 =
               realHeight (.node l tk k ht r))
          rw [show updateHeight (.node l tk k ht (deleteHelper r key m).1) =
              mkNode l tk k (deleteHelper r key m).1 from rfl]
          by_cases hbal : realHeight l ≤ realHeight (deleteHelper r key m).1 + 1
          · obtain ⟨heq2, hA2, hH2⟩ :=
              balance_noop l (deleteHelper r key m).1 tk k hAl hA1 hbal (by omega)
            rw [heq2]
            exact ⟨hA2, by omega⟩
          · have himb : realHeight l = realHeight (deleteHelper r key m).1 + 2 := by omega
            obtain ⟨hA3, hH3⟩ :=
              balance_left l (deleteHelper r key m).1 tk k hAl hA1 himb
            exact ⟨hA3, by omega⟩
        · rw [if_neg hc2]
          cases l with
          | nil =>
              have h0 : realHeight Tree.nil = 0 := rfl
              cases r with
              | nil =>
                  show Avl Tree.nil ∧
                    (realHeight Tree.nil = realHeight (.node Tree.nil tk k ht Tree.nil) ∨
                     realHeight Tree.nil + 1 = realHeight (.node Tree.nil tk k ht Tree.nil))
                  exact ⟨trivial, by omega⟩
              | node rl0 rt0 rk0 rh0 rr0 =>
                  show Avl (.node rl0 rt0 rk0 rh0 rr0) ∧
                    (realHeight (.node rl0 rt0 rk0 rh0 rr0) =
                       realHeight (.node Tree.nil tk k ht (.node rl0 rt0 rk0 rh0 rr0)) ∨
                     realHeight (.node rl0 rt0 rk0 rh0 rr0) + 1 =
                       realHeight (.node Tree.nil tk k ht (.node rl0 rt0 rk0 rh0 rr0)))
                  exact ⟨hAr, by omega⟩
          | node ll0 lt0 lk0 lh0 lr0 =>
              cases r with
              | nil =>
                  have h0 : realHeight Tree.nil = 0 := rfl
                  show Avl (.node ll0 lt0 lk0 lh0 lr0) ∧
                    (realHeight (.node ll0 lt0 lk0 lh0 lr0) =
                       realHeight (.node (.node ll0 lt0 lk0 lh0 lr0) tk k ht Tree.nil) ∨
                     realHeight (.node ll0 lt0 lk0 lh0 lr0) + 1 =
                       realHeight (.node (.node ll0 lt0 lk0 lh0 lr0) tk k ht Tree.nil))
                  exact ⟨hAl, by omega⟩
              | node rl0 rt0 rk0 rh0 rr0 =>
                  rcases hfm : findMin (.node rl0 rt0 rk0 rh0 rr0) with _ | ⟨fa, ftk, fk, fh, fb⟩
                  · obtain ⟨x1, x2, x3, x4, x5, hx⟩ :=
                      findMin_is_node (.node rl0 rt0 rk0 rh0 rr0) (by simp)
                    rw [hfm] at hx
                    exact absurd hx (by simp)
                  · obtain ⟨hA1, hh1⟩ :=
                      ihr fk (mapErase m tk.id) hAr
                    show Avl (balance (updateHeight (.node (.node ll0 lt0 lk0 lh0 lr0) ftk fk ht
                        (deleteHelper (.node rl0 rt0 rk0 rh0 rr0) fk (mapErase m tk.id)).1))) ∧
                      (realHeight (balance (updateHeight (.node (.node ll0 lt0 lk0 lh0 lr0) ftk fk ht
                          (deleteHelper (.node rl0 rt0 rk0 rh0 rr0) fk (mapErase m tk.id)).1))) =
                         realHeight (.node (.node ll0 lt0 lk0 lh0 lr0) tk k ht
                           (.node rl0 rt0 rk0 rh0 rr0)) ∨
                       realHeight (balance (updateHeight (.node (.node ll0 lt0 lk0 lh0 lr0) ftk fk ht
                          (deleteHelper (.node rl0 rt0 rk0 rh0 rr0) fk (mapErase m tk.id)).1))) + 1 =
                         realHeight (.node (.node ll0 lt0 lk0 lh0 lr0) tk k ht
                           (.node rl0 rt0 rk0 rh0 rr0)))
                    rw [show updateHeight (.node (.node ll0 lt0 lk0 lh0 lr0) ftk fk ht
                          (deleteHelper (.node rl0 rt0 rk0 rh0 rr0) fk (mapErase m tk.id)).1) =
                        mkNode (.node ll0 lt0 lk0 lh0 lr0) ftk fk
                          (deleteHelper (.node rl0 rt0 rk0 rh0 rr0) fk (mapErase m tk.id)).1
                        from rfl]
                    by_cases hbal : realHeight (.node ll0 lt0 lk0 lh0 lr0) ≤
                        realHeight (deleteHelper (.node rl0 rt0 rk0 rh0 rr0) fk
                          (mapErase m tk.id)).1 + 1
                    · obtain ⟨heq2, hA2, hH2⟩ :=
                        balance_noop (.node ll0 lt0 lk0 lh0 lr0)
                          (deleteHelper (.node rl0 rt0 rk0 rh0 rr0) fk (mapErase m tk.id)).1
                          ftk fk hAl hA1 hbal (by omega)
                      rw [heq2]
                      exact ⟨hA2, by omega⟩
                    · have himb : realHeight (.node ll0 lt0 lk0 lh0 lr0) =
                          realHeight (deleteHelper (.node rl0 rt0 rk0 rh0 rr0) fk
                            (mapErase m tk.id)).1 + 2 := by omega
                      obtain ⟨hA3, hH3⟩ :=
                        balance_left (.node ll0 lt0 lk0 lh0 lr0)
                          (deleteHelper (.node rl0 rt0 rk0 rh0 rr0) fk (mapErase m tk.id)).1
                          ftk fk hAl hA1 himb
                      exact ⟨hA3, by omega⟩

theorem rebuildLoop_avl (l : List Task) :
    ∀ (t : Tree) (m : IdMap), Avl t → Avl (rebuildLoop t m l).1 := by
  induction l with
  | nil => intro t m h; exact h
  | cons task rest ih =>
      intro t m h
      rcases heq : insertHelper t task m with ⟨fst, snd⟩
      cases fst with
      | ok t2 =>
          have hred : rebuildLoop t m (task :: rest) = rebuildLoop t2 snd rest := by
            conv_lhs => rw [rebuildLoop]
            rw [heq]
          rw [hred]
          exact ih t2 snd (insertHelper_avl t task m t2 snd heq h).1
      | error e =>
          have hred : rebuildLoop t m (task :: rest) = (t, snd, some e) := by
            conv_lhs => rw [rebuildLoop]
            rw [heq]
          rw [hred]
          exact h

theorem rebuild_avl (s : AVLTree) (l : List Task) : Avl ((s.rebuild l).1).root := by
  show Avl (rebuildLoop Tree.nil [] l).1
  exact rebuildLoop_avl l Tree.nil [] trivial

theorem insert_avl (s : AVLTree) (t : Task) (h : Avl s.root) :
    Avl ((s.insert t).1).root := by
  unfold AVLTree.insert
  by_cases hdup : (mapFind s.idMap t.id).isSome
  · rw [if_pos hdup]; exact h
  · rw [if_neg hdup]
    rcases heq : insertHelper s.root t s.idMap with ⟨fst, snd⟩
    cases fst with
    | ok rNew =>
        show Avl rNew
        exact (insertHelper_avl s.root t s.idMap rNew snd heq h).1
    | error e =>
        show Avl s.root
        exact h

theorem deleteTask_avl (s : AVLTree) (i : String) (h : Avl s.root) :
    Avl ((s.deleteTask i).1).root := by
  unfold AVLTree.deleteTask
  rcases hf : mapFind s.idMap i with _ | tk
  · exact h
  · show Avl (deleteHelper s.root tk.priority s.idMap).1
    exact (deleteHelper_avl s.root tk.priority s.idMap h).1

theorem insertOp_avl (s : AVLTree) (i desc cat : String) (y mo d hIn : Int)
    (h : Avl s.root) : Avl (insertOp s i desc cat y mo d hIn).root := by
  unfold insertOp
  by_cases hdup : (s.search i).isSome
  · rw [if_pos hdup]; exact h
  · rw [if_neg hdup]
    exact rebuild_avl s _

theorem statusChangeOp_avl (s : AVLTree) (i : String) (ans : Bool) (h : Avl s.root) :
    Avl (statusChangeOp s i ans).root := by
  unfold statusChangeOp
  rcases hs : s.search i with _ | tsk
  · exact h
  · by_cases hall : (s.listTasks.all (fun t => !(t.id == i))) = true
    · rw [if_pos hall]
      exact h
    · rw [if_neg hall]
      exact rebuild_avl s _

theorem reachable_avl (s : AVLTree) (h : Reachable s) : Avl s.root := by
  induction h with
  | empty => trivial
  | insert s t _ ih => exact insert_avl s t ih
  | delete s i _ ih => exact deleteTask_avl s i ih
  | rebuild s l _ => exact rebuild_avl s l
  | insertShell s i desc cat y mo d hIn _ ih => exact insertOp_avl s i desc cat y mo d hIn ih
  | statusShell s i ans _ ih => exact statusChangeOp_avl s i ans ih
  | deleteShell s i _ ih => exact deleteTask_avl s i ih

theorem avl_fib (t : Tree) (h : Avl t) :
    Nat.fib (realHeight t + 2) ≤ (inOrder t).length + 1 := by
  induction t with
  | nil => decide
  | node l tk k ht r ihl ihr =>
      obtain ⟨hAl, hAr, hst, hb1, hb2⟩ := h
      have il := ihl hAl
      have ir := ihr hAr
      have hlen : (inOrder (.node l tk k ht r)).length =
          (inOrder l).length + (inOrder r).length + 1 := by
        simp [inOrder]
        omega
      have hrh : realHeight (.node l tk k ht r) =
          1 + max (realHeight l) (realHeight r) := rfl
      rcases le_total (realHeight l) (realHeight r) with hle | hle
      · have hmax : max (realHeight l) (realHeight r) = realHeight r := by omega
        rw [hrh, hmax, hlen]
        have hfib : Nat.fib (1 + realHeight r + 2) =
            Nat.fib (realHeight r + 1) + Nat.fib (realHeight r + 2) := by
          have he : 1 + realHeight r + 2 = (realHeight r + 1) + 2 := by omega
          rw [he, Nat.fib_add_two]
        rw [hfib]
        have hmono : Nat.fib (realHeight r + 1) ≤ Nat.fib (realHeight l + 2) :=
          Nat.fib_mono (by omega)
        omega
      · have hmax : max (realHeight l) (realHeight r) = realHeight l := by omega
        rw [hrh, hmax, hlen]
        have hfib : Nat.fib (1 + realHeight l + 2) =
            Nat.fib (realHeight l + 1) + Nat.fib (realHeight l + 2) := by
          have he : 1 + realHeight l + 2 = (realHeight l + 1) + 2 := by omega
          rw [he, Nat.fib_add_two]
        rw [hfib]
        have hmono : Nat.fib (realHeight l + 1) ≤ Nat.fib (realHeight r + 2) :=
          Nat.fib_mono (by omega)
        omega

theorem fib_two_pow (k : Nat) : 2 ^ k ≤ Nat.fib (2 * k + 2) := by
  induction k with
  | zero => decide
  | succ n ih =>
      have h1 : 2 * (n + 1) + 2 = (2 * n + 2) + 2 := by omega
      rw [h1, Nat.fib_add_two]
      have h2 : Nat.fib (2 * n + 2) ≤ Nat.fib (2 * n + 2 + 1) := Nat.fib_mono (by omega)
      have h3 : 2 ^ (n + 1) = 2 ^ n + 2 ^ n := by ring
      omega

theorem avl_height_log (t : Tree) (h : Avl t) :
    realHeight t ≤ 2 * Nat.log 2 ((inOrder t).length + 1) + 1 := by
  have hfib := avl_fib t h
  have hk : 2 ^ (realHeight t / 2) ≤ (inOrder t).length + 1 := by
    have h1 : 2 * (realHeight t / 2) + 2 ≤ realHeight t + 2 := by omega
    have h2 : Nat.fib (2 * (realHeight t / 2) + 2) ≤ Nat.fib (realHeight t + 2) :=
      Nat.fib_mono h1
    have h3 := fib_two_pow (realHeight t / 2)
    omega
  have hlog : realHeight t / 2 ≤ Nat.log 2 ((inOrder t).length + 1) :=
    (Nat.pow_le_iff_le_log (by omega) (by omega)).mp hk
  omega

theorem avl_balancedFactors (t : Tree) (h : Avl t) : BalancedFactors t := by
  induction t with
  | nil => trivial
  | node l tk k ht r ihl ihr =>
      obtain ⟨hAl, hAr, hst, hb1, hb2⟩ := h
      have hgl := getHeight_eq l hAl
      have hgr := getHeight_eq r hAr
      refine ⟨ihl hAl, ihr hAr, ?_, ?_⟩
      · show -(1 : Int) ≤ (getHeight l : Int) - getHeight r
        rw [hgl, hgr]; omega
      · show ((getHeight l : Int) - getHeight r) ≤ 1
        rw [hgl, hgr]; omega

/-- C8: in every state reachable through any sequence of inserts, deletes
and rebuilds (the shell operations included), every node of the tree has a
balance factor (left height minus right height) of magnitude at most one,
and the height h with N live tasks obeys the sharp AVL bound
fib(h+2) ≤ N+1 — the combinatorial form of the ⌈1.44·log2(N+2)⌉ bound
(1.44 is the textbook rounding of 1/log2 φ in this Fibonacci inequality) —
whence h ≤ 2·log2(N+1) + 1 = O(log N). -/
theorem reachable_balanced (s : AVLTree) (h : Reachable s) :
    BalancedFactors s.root ∧
    Nat.fib (realHeight s.root + 2) ≤ s.listTasks.length + 1 ∧
    realHeight s.root ≤ 2 * Nat.log 2 (s.listTasks.length + 1) + 1 := by
  have hA := reachable_avl s h
  exact ⟨avl_balancedFactors s.root hA, avl_fib s.root hA, avl_height_log s.root hA⟩

/-- Witness for C8 at the reachable three-task state built by rebuild. -/
theorem reachable_balanced_witness :
    BalancedFactors mapBugStart.root ∧
    Nat.fib (realHeight mapBugStart.root + 2) ≤ mapBugStart.listTasks.length + 1 ∧
    realHeight mapBugStart.root ≤ 2 * Nat.log 2 (mapBugStart.listTasks.length + 1) + 1 :=
  reachable_balanced mapBugStart
    (Reachable.rebuild AVLTree.empty [bugT1, bugT2, bugT3] Reachable.empty)

/-!
## Task provenance through rebuild (for the partition claim)
-/

theorem mem_insertHelper_ok (t : Tree) (task : Task) :
    ∀ (m : IdMap) (t2 : Tree) (m2 : IdMap),
      insertHelper t task m = (Except.ok t2, m2) →
      ∀ x ∈ inOrder t2, x = task ∨ x ∈ inOrder t := by
  induction t with
  | nil =>
      intro m t2 m2 h x hx
      have h1 : Except.ok (Tree.node .nil task task.priority 1 .nil) = Except.ok t2 :=
        congrArg Prod.fst h
      have h2 : Tree.node .nil task task.priority 1 .nil = t2 := by injection h1
      subst h2
      simp [inOrder] at hx
      exact Or.inl hx
  | node l tk k ht r ihl ihr =>
      intro m t2 m2 h x hx
      unfold insertHelper at h
      by_cases hc1 : task.priority < k
      · rw [if_pos hc1] at h
        rcases heq : insertHelper l task m with ⟨fst, snd⟩
        rw [heq] at h
        cases fst with
        | error e => exact absurd (congrArg Prod.fst h) (by simp)
        | ok lNew =>
            have h1 : Except.ok (balance (updateHeight (.node lNew tk k ht r))) =
                Except.ok t2 := congrArg Prod.fst h
            have h2 : balance (updateHeight (.node lNew tk k ht r)) = t2 := by injection h1
            subst h2
            rw [inOrder_balance, inOrder_updateHeight] at hx
            simp only [inOrder, List.append_assoc, List.mem_append,
              List.mem_singleton] at hx
            show x = task ∨ x ∈ inOrder l ++ [tk] ++ inOrder r
            simp only [List.append_assoc, List.mem_append, List.mem_singleton]
            rcases hx with hx | hx | hx
            · rcases ihl m lNew snd heq x hx with h3 | h3
              · exact Or.inl h3
              · exact Or.inr (Or.inl h3)
            · exact Or.inr (Or.inr (Or.inl hx))
            · exact Or.inr (Or.inr (Or.inr hx))
      · rw [if_neg hc1] at h
        by_cases hc2 : task.priority > k
        · rw [if_pos hc2] at h
          rcases heq : insertHelper r task m with ⟨fst, snd⟩
          rw [heq] at h
          cases fst with
          | error e => exact absurd (congrArg Prod.fst h) (by simp)
          | ok rNew =>
              have h1 : Except.ok (balance (updateHeight (.node l tk k ht rNew))) =
                  Except.ok t2 := congrArg Prod.fst h
              have h2 : balance (updateHeight (.node l tk k ht rNew)) = t2 := by injection h1
              subst h2
              rw [inOrder_balance, inOrder_updateHeight] at hx
              simp only [inOrder, List.append_assoc, List.mem_append,
                List.mem_singleton] at hx
              show x = task ∨ x ∈ inOrder l ++ [tk] ++ inOrder r
              simp only [List.append_assoc, List.mem_append, List.mem_singleton]
              rcases hx with hx | hx | hx
              · exact Or.inr (Or.inl hx)
              · exact Or.inr (Or.inr (Or.inl hx))
              · rcases ihr m rNew snd heq x hx with h3 | h3
                · exact Or.inl h3
                · exact Or.inr (Or.inr (Or.inr h3))
        · rw [if_neg hc2] at h
          exact absurd (congrArg Prod.fst h) (by simp)

theorem mem_rebuildLoop (l : List Task) :
    ∀ (t : Tree) (m : IdMap), ∀ x ∈ inOrder (rebuildLoop t m l).1,
      x ∈ inOrder t ∨ x ∈ l := by
  induction l with
  | nil =>
      intro t m x hx
      exact Or.inl hx
  | cons task rest ih =>
      intro t m x hx
      rcases heq : insertHelper t task m with ⟨fst, snd⟩
      cases fst with
      | ok t2 =>
          have hred : rebuildLoop t m (task :: rest) = rebuildLoop t2 snd rest := by
            conv_lhs => rw [rebuildLoop]
            rw [heq]
          rw [hred] at hx
          rcases ih t2 snd x hx with h1 | h1
          · rcases mem_insertHelper_ok t task m t2 snd heq x h1 with h2 | h2
            · exact Or.inr (by simp [h2])
            · exact Or.inl h2
          · exact Or.inr (by simp [h1])
      | error e =>
          have hred : rebuildLoop t m (task :: rest) = (t, snd, some e) := by
            conv_lhs => rw [rebuildLoop]
            rw [heq]
          rw [hred] at hx
          exact Or.inl hx

theorem mem_rebuild (s : AVLTree) (l : List Task) :
    ∀ x ∈ ((s.rebuild l).1).listTasks, x ∈ l := by
  intro x hx
  have hx2 : x ∈ inOrder (rebuildLoop Tree.nil [] l).1 := hx
  rcases mem_rebuildLoop l Tree.nil [] x hx2 with h | h
  · exact absurd h (by simp [inOrder])
  · exact h

theorem insertRankIncompleteOnly_cons (first : Task) (rest : List Task) (hrs : Int) :
    insertRankIncompleteOnly (first :: rest) hrs =
      if hrs < first.remainingHours then
        (1, (first :: rest).map (fun t => withPriority t (t.priority + 1)))
      else if hrs ≥ ((first :: rest).getLast (List.cons_ne_nil first rest)).remainingHours then
        (((first :: rest).getLast (List.cons_ne_nil first rest)).priority + 1, first :: rest)
      else
        ((match (first :: rest).find? (fun t => decide (hrs < t.remainingHours)) with
          | some t => t.priority
          | none => 1),
         (first :: rest).map (fun t =>
           if t.priority ≥
             (match (first :: rest).find? (fun u => decide (hrs < u.remainingHours)) with
              | some u => u.priority
              | none => 1) then withPriority t (t.priority + 1) else t)) := rfl

theorem insertRankIncompleteOnly_statuses (tasks : List Task) (hrs : Int) :
    ∀ x ∈ (insertRankIncompleteOnly tasks hrs).2, ∃ u ∈ tasks, x.status = u.status := by
  intro x hx
  cases tasks with
  | nil => simp [insertRankIncompleteOnly] at hx
  | cons first rest =>
      rw [insertRankIncompleteOnly_cons] at hx
      by_cases h1 : hrs < first.remainingHours
      · rw [if_pos h1] at hx
        have hx2 : x ∈ (first :: rest).map (fun t => withPriority t (t.priority + 1)) := hx
        simp only [List.mem_map] at hx2
        obtain ⟨u, hu, rfl⟩ := hx2
        exact ⟨u, hu, rfl⟩
      · rw [if_neg h1] at hx
        by_cases h2 : hrs ≥
            ((first :: rest).getLast (List.cons_ne_nil first rest)).remainingHours
        · rw [if_pos h2] at hx
          exact ⟨x, hx, rfl⟩
        · rw [if_neg h2] at hx
          have hx2 : x ∈ (first :: rest).map (fun t =>
              if t.priority ≥
                (match (first :: rest).find? (fun u => decide (hrs < u.remainingHours)) with
                 | some u => u.priority
                 | none => 1) then withPriority t (t.priority + 1) else t) := hx
          simp only [List.mem_map] at hx2
          obtain ⟨u, hu, rfl⟩ := hx2
          refine ⟨u, hu, ?_⟩
          split <;> rfl

/-- C3 amended: for every state whose tasks are all incomplete, every
insertion of a new incomplete task preserves the partition invariant I2/P2.
(When complete tasks are present the ranking compares against their frozen
remaining hours and can violate I2 — see the counterexample.) -/
theorem insertOp_partition_all_incomplete (s : AVLTree) (i desc cat : String)
    (years months days hoursIn : Int)
    (hall : ∀ t ∈ s.listTasks, t.status = "incomplete") :
    partitionOk ((insertOp s i desc cat years months days hoursIn).listTasks) := by
  have hout : ∀ x ∈ (insertOp s i desc cat years months days hoursIn).listTasks,
      x.status = "incomplete" := by
    intro x hx
    rw [insertOp_eq] at hx
    by_cases hdup : (s.search i).isSome
    · rw [if_pos hdup] at hx
      exact hall x hx
    · rw [if_neg hdup] at hx
      have h1 := mem_rebuild s _ x hx
      have h2 := (sortTasks_perm _ _).subset h1
      rcases List.mem_append.mp h2 with h3 | h3
      · obtain ⟨u, hu, hst⟩ := insertRankIncompleteOnly_statuses _ _ x h3
        rw [hst]
        exact hall u hu
      · rw [List.mem_singleton] at h3
        rw [h3]
  intro a ha b hb hai hbc
  rw [hout b hb] at hbc
  exact absurd hbc (by decide)

/-- Witness for C3's amended theorem: inserting a 7h task into the
all-incomplete Scenario A state keeps the partition invariant. -/
theorem insertOp_partition_all_incomplete_witness :
    (∀ t ∈ scenA.listTasks, t.status = "incomplete") ∧
    partitionOk ((insertOp scenA "D" "w" "c" 0 0 0 7).listTasks) :=
  ⟨by decide, insertOp_partition_all_incomplete scenA "D" "w" "c" 0 0 0 7 (by decide)⟩

end SmartTask
